import Mathlib

/-!
Shallow embedding of the segregated-free-list allocator in `src/mm.c` and proofs
checking the natural-language specification against it.

Modelling conventions:
* Memory is word-granular: `Mem : Nat → Nat` maps a byte address to the 32-bit
  word stored there.  The C code accesses the heap exclusively through 4-byte
  words at 4-aligned addresses (`GET`/`PUT`, and `memset`/`memcpy` over
  4-divisible ranges at 4-aligned starts), so this is faithful.
* Pointers are byte addresses as `Nat`, with `0` playing the role of `NULL`
  (the heap never contains address 0; the model places the heap at address 8).
* `size_t` arithmetic that can wrap is taken mod `2 ^ 64` where the wrap is
  observable (`ALIGN`, the `calloc` multiplication, the `place` subtraction);
  stores truncate to 32 bits as `PUT` does on `unsigned int`.
* Every heap-walking loop takes explicit fuel and returns `none` when the fuel
  runs out; `none` is a modelling artefact (a diverging C loop), not a C return
  value.  A C `NULL` result is the value `0`.
-/

namespace MM

/-- Word-granular memory: byte address to 32-bit word stored at it. -/
abbrev Mem := Nat → Nat

/-- PUT(p, val): store a word; the C store is to `unsigned int`, hence mod 2^32. -/
def put (m : Mem) (p v : Nat) : Mem := fun a => if a = p then v % 2 ^ 32 else m a

/-- GET_SIZE(p) = GET(p) & ~0x7: clear the low three bits, i.e. round down to a
multiple of 8.  On the 32-bit word values produced by `put` this equals the C
bitmask. -/
def getSize (v : Nat) : Nat := v - v % 8

/-- GET_ALLOC(p) = GET(p) & 0x1, i.e. the parity bit. -/
def getAlloc (v : Nat) : Nat := v % 2

/-- PACK(size, alloc) = size | alloc. -/
def pack (size alloc : Nat) : Nat := size ||| alloc

/-- ALIGN(x) = ((x) + 7) & ~0x7 evaluated in `size_t`: the addition wraps mod
2^64, the mask rounds down to a multiple of 8. -/
def align64 (x : Nat) : Nat := (x + 7) % 2 ^ 64 - (x + 7) % 2 ^ 64 % 8

/-- B2P(base, bias): a zero bias decodes to NULL (0), a positive one to base + bias. -/
def b2p (base bias : Nat) : Nat := if 0 < bias then base + bias else 0

/-- P2B(base, ptr) = (u_32)(ptr - base). -/
def p2b (base ptr : Nat) : Nat := (ptr - base) % 2 ^ 32

/-- FTRP(bp) = bp + GET_SIZE(HDRP(bp)) - DSIZE. -/
def ftrp (m : Mem) (bp : Nat) : Nat := bp + getSize (m (bp - 4)) - 8

/-- NEXT_BLKP(bp) = bp + GET_SIZE(HDRP(bp)). -/
def nextBlkp (m : Mem) (bp : Nat) : Nat := bp + getSize (m (bp - 4))

/-- PREV_BLKP(bp) = bp - GET_SIZE(bp - DSIZE). -/
def prevBlkp (m : Mem) (bp : Nat) : Nat := bp - getSize (m (bp - 8))

/-- Allocator state: the heap word memory, the region bounds of the backing
store (`mem_sbrk` grows `brk` monotonically up to `maxAddr`), and the two
globals `heap_listp` and `seg_lists` (0 = NULL). -/
structure MMState where
  mem : Mem
  heapLo : Nat
  brk : Nat
  maxAddr : Nat
  heapListp : Nat
  segLists : Nat

/-- mem_sbrk(incr): returns the old break and grows the region, or fails when
the backing store is exhausted. -/
def sbrk (s : MMState) (n : Nat) : Option (MMState × Nat) :=
  if s.brk + n > s.maxAddr then none else some ({ s with brk := s.brk + n }, s.brk)

/-- Address of seg_lists[i]. -/
def segAddr (s : MMState) (i : Nat) : Nat := s.segLists + 4 * i

/-- Value of seg_lists[i]. -/
def segGet (s : MMState) (i : Nat) : Nat := s.mem (segAddr s i)

/-- Loop of add_to_list / remove_from_list:
`while (list_index < LISTNUM - 1 && asize > (16 << list_index)) ++list_index`.
The loop runs at most 9 times, counted down by the last argument. -/
def liGo (asz : Nat) : Nat → Nat → Nat
  | i, 0 => i
  | i, k + 1 => if i < 9 ∧ 16 <<< i < asz then liGo asz (i + 1) k else i

/-- List index selected by add_to_list / remove_from_list for a block of size asz. -/
def listIndexOf (asz : Nat) : Nat := liGo asz 0 9

/-- Walk of add_to_list:
`while (next_ptr != NULL && asize > GET_SIZE(HDRP(next_ptr)))` advancing
`prev_ptr`/`next_ptr` through the class list.  Starting from `(0, head)` the
stopping point `(p, n)` identifies the C branch taken: `(0,0)` empty list,
`(0,n)` insert at the head, `(p,n)` insert in the middle, `(p,0)` insert at
the tail. -/
def findPosGo (s : MMState) (asz : Nat) : Nat → Nat → Nat → Option (Nat × Nat)
  | _, _, 0 => none
  | p, n, fuel + 1 =>
    if n ≠ 0 ∧ getSize (s.mem (n - 4)) < asz then
      findPosGo s asz n (b2p s.heapListp (s.mem (n + 4))) fuel
    else some (p, n)

/-- add_to_list(bp, asize): find the class, walk to the sorted position and
splice the block in.  The four cases write exactly the bias words the C writes,
in the C's order. -/
def add_to_list (s : MMState) (bp asz fuel : Nat) : Option MMState :=
  let i := listIndexOf asz
  let sA := segAddr s i
  match findPosGo s asz 0 (b2p s.heapListp (s.mem sA)) fuel with
  | none => none
  | some (p, n) =>
    if n = 0 then
      if p = 0 then
        let m := put (put (put s.mem (bp + 4) 0) bp 0) sA (p2b s.heapListp bp)
        some { s with mem := m }
      else
        let m := put (put (put s.mem (bp + 4) 0) (p + 4) (p2b s.heapListp bp)) bp
          (p2b s.heapListp p)
        some { s with mem := m }
    else
      if p = 0 then
        let m := put (put (put (put s.mem (bp + 4) (p2b s.heapListp n)) n (p2b s.heapListp bp))
          bp 0) sA (p2b s.heapListp bp)
        some { s with mem := m }
      else
        let m := put (put (put (put s.mem (bp + 4) (p2b s.heapListp n)) n (p2b s.heapListp bp))
          (p + 4) (p2b s.heapListp bp)) bp (p2b s.heapListp p)
        some { s with mem := m }

/-- remove_from_list(bp, asize): splice bp out using its own prev/next bias
fields; no list walk is performed. -/
def remove_from_list (s : MMState) (bp asz : Nat) : MMState :=
  let i := listIndexOf asz
  let sA := segAddr s i
  let nx := b2p s.heapListp (s.mem (bp + 4))
  let pv := b2p s.heapListp (s.mem bp)
  if pv = 0 then
    if nx = 0 then { s with mem := put s.mem sA 0 }
    else { s with mem := put (put s.mem nx 0) sA (p2b s.heapListp nx) }
  else
    if nx = 0 then { s with mem := put s.mem (pv + 4) 0 }
    else { s with mem := put (put s.mem (pv + 4) (p2b s.heapListp nx)) nx (p2b s.heapListp pv) }

/-- coalesce(bp): the four boundary-tag cases.  Each argument of a
remove_from_list / PUT call is recomputed from the current memory exactly where
the C evaluates it. -/
def coalesce (s : MMState) (bp fuel : Nat) : Option (MMState × Nat) :=
  let prevAl := getAlloc (s.mem (prevBlkp s.mem bp - 4))
  let nextAl := getAlloc (s.mem (nextBlkp s.mem bp - 4))
  let asz := getSize (s.mem (bp - 4))
  if prevAl ≠ 0 ∧ nextAl ≠ 0 then some (s, bp)
  else
    let step :=
      if prevAl ≠ 0 then
        let nextSize := getSize (s.mem (nextBlkp s.mem bp - 4))
        let s1 := remove_from_list s bp asz
        let s2 := remove_from_list s1 (nextBlkp s1.mem bp) nextSize
        let a2 := asz + nextSize
        let s3 := { s2 with mem := put s2.mem (bp - 4) (pack a2 0) }
        let s4 := { s3 with mem := put s3.mem (ftrp s3.mem bp) (pack a2 0) }
        (s4, bp, a2)
      else if nextAl ≠ 0 then
        let prevSize := getSize (s.mem (prevBlkp s.mem bp - 4))
        let s1 := remove_from_list s bp asz
        let s2 := remove_from_list s1 (prevBlkp s1.mem bp) prevSize
        let a2 := asz + prevSize
        let bp2 := prevBlkp s2.mem bp
        let s3 := { s2 with mem := put s2.mem (bp2 - 4) (pack a2 0) }
        let s4 := { s3 with mem := put s3.mem (ftrp s3.mem bp2) (pack a2 0) }
        (s4, bp2, a2)
      else
        let nextSize := getSize (s.mem (nextBlkp s.mem bp - 4))
        let prevSize := getSize (s.mem (prevBlkp s.mem bp - 4))
        let s1 := remove_from_list s bp asz
        let s2 := remove_from_list s1 (prevBlkp s1.mem bp) prevSize
        let s3 := remove_from_list s2 (nextBlkp s2.mem bp) nextSize
        let a2 := asz + nextSize + prevSize
        let bp2 := prevBlkp s3.mem bp
        let s4 := { s3 with mem := put s3.mem (bp2 - 4) (pack a2 0) }
        let s5 := { s4 with mem := put s4.mem (ftrp s4.mem bp2) (pack a2 0) }
        (s5, bp2, a2)
    match step with
    | (s', bp', a') => (add_to_list s' bp' a' fuel).map fun s'' => (s'', bp')

/-- place(bp, size): allocate at least `size` bytes in the free block at bp,
splitting when the remainder is at least the 16-byte minimum.  The C computes
`delta = blk_size - size` in `size_t`; the wrapping subtraction is modelled
exactly. -/
def place (s : MMState) (bp asz fuel : Nat) : Option (MMState × Nat) :=
  let blk := getSize (s.mem (bp - 4))
  let s1 := remove_from_list s bp blk
  let delta := (blk + 2 ^ 64 - asz) % 2 ^ 64
  if delta < 16 then
    let s2 := { s1 with mem := put s1.mem (bp - 4) (pack blk 1) }
    let s3 := { s2 with mem := put s2.mem (ftrp s2.mem bp) (pack blk 1) }
    some (s3, bp)
  else
    let s2 := { s1 with mem := put s1.mem (bp - 4) (pack asz 1) }
    let s3 := { s2 with mem := put s2.mem (ftrp s2.mem bp) (pack asz 1) }
    match add_to_list s3 (nextBlkp s3.mem bp) delta fuel with
    | none => none
    | some s4 =>
      let s5 := { s4 with mem := put s4.mem (nextBlkp s4.mem bp - 4) (pack delta 0) }
      let s6 := { s5 with mem := put s5.mem (ftrp s5.mem (nextBlkp s5.mem bp)) (pack delta 0) }
      some (s6, bp)

/-- extend_heap(size): grow the backing store, format the new free block over
the old epilogue, write the new epilogue, insert and coalesce.  Result 0 models
the C NULL return when `mem_sbrk` fails. -/
def extend_heap (s : MMState) (size fuel : Nat) : Option (MMState × Nat) :=
  let asz := align64 size
  match sbrk s asz with
  | none => some (s, 0)
  | some (s1, bp) =>
    let s2 := { s1 with mem := put s1.mem (bp - 4) (pack asz 0) }
    let s3 := { s2 with mem := put s2.mem (ftrp s2.mem bp) (pack asz 0) }
    let s4 := { s3 with mem := put s3.mem (nextBlkp s3.mem bp - 4) (pack 0 1) }
    match add_to_list s4 bp asz fuel with
    | none => none
    | some s5 => coalesce s5 bp fuel

/-- mm_init: sbrk 14 words, zero the ten list heads and the padding word, write
prologue and epilogue, set the globals, extend by CHUNKSIZE.  The Bool is the
C success (return 0); on a failed first sbrk the C stores the (void * )-1
result into heap_listp. -/
def mm_init (s : MMState) (fuel : Nat) : Option (MMState × Bool) :=
  match sbrk s 56 with
  | none => some ({ s with heapListp := 2 ^ 64 - 1 }, false)
  | some (s1, hl) =>
    let m0 := s1.mem
    let m1 := put (put (put (put (put (put m0 hl 0) (hl + 4) 0) (hl + 8) 0) (hl + 12) 0)
      (hl + 16) 0) (hl + 20) 0
    let m2 := put (put (put (put (put m1 (hl + 24) 0) (hl + 28) 0) (hl + 32) 0) (hl + 36) 0)
      (hl + 40) 0
    let m3 := put (put (put m2 (hl + 44) (pack 8 1)) (hl + 48) (pack 8 1)) (hl + 52) (pack 0 1)
    let s2 := { s1 with mem := m3, segLists := hl, heapListp := hl + 48 }
    match extend_heap s2 4096 fuel with
    | none => none
    | some (s3, bp) => some (s3, bp ≠ 0)

/-- Adjusted size computed by malloc:
`asize = (size <= DSIZE) ? (DSIZE << 1) : ALIGN(size + DSIZE)`, with the
`size + DSIZE` addition wrapping in `size_t`. -/
def asizeOf (n : Nat) : Nat := if n ≤ 8 then 16 else align64 ((n + 8) % 2 ^ 64)

/-- Search loop body of malloc: scan one class list from a node, stopping at
the first block whose size is at least asize; result 0 models the C's NULL
(no fit in this list). -/
def scanGo (s : MMState) (asz : Nat) : Nat → Nat → Option Nat
  | _, 0 => none
  | bp, fuel + 1 =>
    if bp ≠ 0 ∧ getSize (s.mem (bp - 4)) < asz then
      scanGo s asz (b2p s.heapListp (s.mem (bp + 4))) fuel
    else some bp

/-- Class-cascade of malloc: `for (list_index = 0; list_index < LISTNUM - 1; ...)`
guarded by `asize <= (16 << list_index) && seg_lists[list_index] != 0`.  The
countdown argument runs the nine loop iterations. -/
def findFitGo (s : MMState) (asz fuel : Nat) : Nat → Nat → Option Nat
  | _, 0 => some 0
  | i, k + 1 =>
    if asz ≤ 16 <<< i ∧ segGet s i ≠ 0 then
      match scanGo s asz (b2p s.heapListp (segGet s i)) fuel with
      | none => none
      | some bp => if bp ≠ 0 then some bp else findFitGo s asz fuel (i + 1) k
    else findFitGo s asz fuel (i + 1) k

/-- Fit search of malloc: the cascade over classes 0..8 followed by the
explicit scan of the last, open-ended class. -/
def findFit (s : MMState) (asz fuel : Nat) : Option Nat :=
  match findFitGo s asz fuel 0 9 with
  | none => none
  | some bp =>
    if bp = 0 then scanGo s asz (b2p s.heapListp (segGet s 9)) fuel else some bp

/-- malloc(size): lazy init, zero-size policy, fit search, single heap-growth
attempt, placement.  Result value 0 models a NULL return. -/
def malloc (s : MMState) (n fuel : Nat) : Option (MMState × Nat) :=
  let s0? := if s.heapListp = 0 then (mm_init s fuel).map Prod.fst else some s
  s0?.bind fun s0 =>
    if n = 0 then some (s0, 0)
    else
      let asz := asizeOf n
      (findFit s0 asz fuel).bind fun bp =>
        (if bp = 0 then extend_heap s0 (max asz 4096) fuel else some (s0, bp)).bind
          fun sb =>
            if sb.2 = 0 then some (sb.1, 0) else place sb.1 sb.2 asz fuel

/-- free(bp): refresh header and footer as free, insert into the lists, coalesce. -/
def free (s : MMState) (bp fuel : Nat) : Option MMState :=
  let s0? := if s.heapListp = 0 then (mm_init s fuel).map Prod.fst else some s
  s0?.bind fun s0 =>
    if bp = 0 then some s0
    else
      let asz := getSize (s0.mem (bp - 4))
      let s1 := { s0 with mem := put s0.mem (bp - 4) (pack asz 0) }
      let s2 := { s1 with mem := put s1.mem (ftrp s1.mem bp) (pack asz 0) }
      (add_to_list s2 bp asz fuel).bind fun s3 => (coalesce s3 bp fuel).map Prod.fst

/-- memset(p, 0, n) on a 4-aligned, 4-divisible range: zero n / 4 consecutive
words.  The count argument is the number of words. -/
def memsetW (m : Mem) (p : Nat) : Nat → Mem
  | 0 => m
  | k + 1 => put (memsetW m p k) (p + 4 * k) 0

/-- memcpy(dst, src, n) on 4-aligned, 4-divisible, disjoint ranges: copy n / 4
consecutive words from the pre-call memory. -/
def memcpyW (m : Mem) (dst src : Nat) : Nat → Mem
  | 0 => m
  | k + 1 => put (memcpyW m dst src k) (dst + 4 * k) (m (src + 4 * k))

/-- realloc(oldptr, size). -/
def realloc (s : MMState) (oldp n fuel : Nat) : Option (MMState × Nat) :=
  if n = 0 then (free s oldp fuel).map fun s' => (s', 0)
  else if oldp = 0 then malloc s n fuel
  else
    (malloc s n fuel).bind fun sb =>
      if sb.2 = 0 then some (sb.1, 0)
      else
        let s1 := sb.1
        let newp := sb.2
        let newPay := getSize (s1.mem (newp - 4)) - 8
        let oldPay := getSize (s1.mem (oldp - 4)) - 8
        let cnt := min newPay oldPay
        let s2 := { s1 with mem := memcpyW s1.mem newp oldp (cnt / 4) }
        (free s2 oldp fuel).map fun s3 => (s3, newp)

/-- Undefined behaviour surfaced by calloc: when mm_malloc returns NULL the C
code evaluates `GET_SIZE(HDRP(newptr))` and `memset(newptr, ...)` on the null
pointer. -/
inductive CallocUB where
  | nullDeref
  deriving DecidableEq, Repr

/-- calloc(nmemb, size): unchecked size_t product, malloc, then
`memset(newptr, 0, GET_SIZE(HDRP(newptr)))` — note the C zeroes the full block
size, not the payload size. -/
def calloc (s : MMState) (nmemb size fuel : Nat) :
    Option (Except CallocUB (MMState × Nat)) :=
  let asz := nmemb * size % 2 ^ 64
  (malloc s asz fuel).map fun sb =>
    if sb.2 = 0 then Except.error CallocUB.nullDeref
    else
      let s1 := sb.1
      let p := sb.2
      Except.ok ({ s1 with mem := memsetW s1.mem p (getSize (s1.mem (p - 4)) / 4) }, p)

/-- Violations detected by mm_checkheap, one per `error_found = 1` site. -/
inductive Violation where
  | heapUninit
  | segUninit
  | sizeMismatch (bp : Nat)
  | allocMismatch (bp : Nat)
  | notAligned (bp : Nat)
  | notInHeap (bp : Nat)
  | notCoalesced (bp : Nat)
  | wrongList (i bp : Nat)
  deriving DecidableEq, Repr

/-- Physical walk of mm_checkheap:
`while (GET_SIZE(HDRP(heap_bp)) || !GET_ALLOC(HDRP(heap_bp)))` checking
header/footer agreement, alignment, and heap bounds. -/
def checkHeapBlocks (s : MMState) : Nat → Nat → Option (List Violation)
  | _, 0 => none
  | bp, fuel + 1 =>
    if getSize (s.mem (bp - 4)) ≠ 0 ∨ getAlloc (s.mem (bp - 4)) = 0 then
      let v1 := if getSize (s.mem (bp - 4)) ≠ getSize (s.mem (ftrp s.mem bp)) then
        [Violation.sizeMismatch bp] else []
      let v2 := if getAlloc (s.mem (bp - 4)) ≠ getAlloc (s.mem (ftrp s.mem bp)) then
        [Violation.allocMismatch bp] else []
      let v3 := if ¬ bp % 8 = 0 then [Violation.notAligned bp] else []
      let v4 := if ¬ (s.heapLo ≤ bp ∧ bp ≤ s.brk - 1) then [Violation.notInHeap bp] else []
      (checkHeapBlocks s (nextBlkp s.mem bp) fuel).map fun vs => v1 ++ v2 ++ v3 ++ v4 ++ vs
    else some []

/-- List walk of mm_checkheap for one class: physical neighbours of a free
block must be allocated, and its size must satisfy
`size > (8 << list_index) && size <= (16 << list_index)` — the same finite
bound is applied to the last class as to the others. -/
def checkListGo (s : MMState) (i : Nat) : Nat → Nat → Option (List Violation)
  | _, 0 => none
  | bp, fuel + 1 =>
    if bp = 0 then some []
    else
      let v1 := if getAlloc (s.mem (prevBlkp s.mem bp - 4)) = 0 ∨
          getAlloc (s.mem (nextBlkp s.mem bp - 4)) = 0 then
        [Violation.notCoalesced bp] else []
      let sz := getSize (s.mem (bp - 4))
      let v2 := if ¬ (8 <<< i < sz ∧ sz ≤ 16 <<< i) then [Violation.wrongList i bp] else []
      (checkListGo s i (b2p s.heapListp (s.mem (bp + 4))) fuel).map fun vs => v1 ++ v2 ++ vs

/-- All ten class-list walks of mm_checkheap. -/
def checkListsGo (s : MMState) (fuel : Nat) : Nat → Nat → Option (List Violation)
  | _, 0 => some []
  | i, k + 1 =>
    (checkListGo s i (b2p s.heapListp (segGet s i)) fuel).bind fun vs =>
      (checkListsGo s fuel (i + 1) k).map fun vs' => vs ++ vs'

/-- mm_checkheap: global-pointer checks, physical walk, list walks.  The Bool
records whether `error_found` is set at the end — in which case the C calls
`exit(0)`, terminating the process. -/
def mm_checkheap (s : MMState) (fuel : Nat) : Option (List Violation × Bool) :=
  let v0 := (if s.heapListp = 0 then [Violation.heapUninit] else []) ++
    (if s.segLists = 0 then [Violation.segUninit] else [])
  (checkHeapBlocks s s.heapListp fuel).bind fun v1 =>
    (checkListsGo s fuel 0 10).map fun v2 =>
      let vs := v0 ++ v1 ++ v2
      (vs, !vs.isEmpty)

/-- Existence witness for the spec's class_of: some class admits the size
(the last index always does, as the clamp target). -/
def classOfSpecExists (sz : Nat) : ∃ k, sz ≤ 16 * 2 ^ k ∨ k = 9 := ⟨9, Or.inr rfl⟩

/-- Modelled from the spec: `class_of(size)` is the smallest k such that
`size <= 16 * 2 ^ k`, clamped to the last index (9) for any larger size. -/
def classOfSpec (sz : Nat) : Nat := Nat.find (classOfSpecExists sz)

/-- Modelled from the spec: the cascade of 4.3 step 2 — walk the classes
upward from class_of(asize), skip empty lists, scan each non-empty list from
its head, stop at the first fit. -/
def specFindFitGo (s : MMState) (asz fuel : Nat) : Nat → Nat → Option Nat
  | _, 0 => some 0
  | i, k + 1 =>
    if segGet s i ≠ 0 then
      match scanGo s asz (b2p s.heapListp (segGet s i)) fuel with
      | none => none
      | some bp => if bp ≠ 0 then some bp else specFindFitGo s asz fuel (i + 1) k
    else specFindFitGo s asz fuel (i + 1) k

/-- Modelled from the spec: fit search = cascade from class_of(asize) through
the classes before the last, then one explicit scan of the final open-ended
class. -/
def specFindFit (s : MMState) (asz fuel : Nat) : Option Nat :=
  match specFindFitGo s asz fuel (classOfSpec asz) (9 - classOfSpec asz) with
  | none => none
  | some bp =>
    if bp = 0 then scanGo s asz (b2p s.heapListp (segGet s 9)) fuel else some bp

/-- The chain of nodes reachable from a node pointer by next-links, as a list;
none when the fuel runs out before NULL is reached. -/
def chainFrom (s : MMState) : Nat → Nat → Option (List Nat)
  | _, 0 => none
  | p, fuel + 1 =>
    if p = 0 then some []
    else (chainFrom s (b2p s.heapListp (s.mem (p + 4))) fuel).map fun L => p :: L

/-- Case analysis of add_to_list once the walk result (p, n) is known: the
four write patterns of the C branches (empty list, head, middle, tail). -/
def addResult (s : MMState) (bp asz p n : Nat) : MMState :=
  let sA := segAddr s (listIndexOf asz)
  if n = 0 then
    if p = 0 then
      { s with mem := put (put (put s.mem (bp + 4) 0) bp 0) sA (p2b s.heapListp bp) }
    else
      { s with mem := put (put (put s.mem (bp + 4) 0) (p + 4) (p2b s.heapListp bp)) bp (p2b s.heapListp p) }
  else
    if p = 0 then
      { s with mem := put (put (put (put s.mem (bp + 4) (p2b s.heapListp n)) n (p2b s.heapListp bp)) bp 0) sA (p2b s.heapListp bp) }
    else
      { s with mem := put (put (put (put s.mem (bp + 4) (p2b s.heapListp n)) n (p2b s.heapListp bp)) (p + 4) (p2b s.heapListp bp)) bp (p2b s.heapListp p) }

/-- Fresh backing store for the concrete runs: one mebibyte available,
starting at address 8. -/
def st0 : MMState :=
  { mem := fun _ => 0, heapLo := 8, brk := 8, maxAddr := 2 ^ 20, heapListp := 0, segLists := 0 }

/-- State after mm_init on the fresh backing store. -/
def stInit : MMState :=
  match mm_init st0 200 with
  | some (s, _) => s
  | none => st0

/-- State after malloc(8) on the fresh heap (the allocation calloc(1, 8) performs). -/
def stM8 : MMState :=
  match malloc stInit 8 200 with
  | some (s, _) => s
  | none => st0

/-- State after calloc(1, 8) on the fresh heap. -/
def stC : MMState :=
  match calloc stInit 1 8 200 with
  | some (Except.ok (s, _)) => s
  | _ => st0

/-- State after malloc(8200) on the fresh heap. -/
def stA : MMState :=
  match malloc stInit 8200 400 with
  | some (s, _) => s
  | none => st0

/-- State after free(p) where p is the pointer malloc(8200) returned: the freed
block coalesces with the 4096-byte split remainder into a free block of size
12304, filed in the last (open-ended) class list. -/
def stF : MMState :=
  match free stA 64 400 with
  | some s => s
  | none => st0

/-- State after malloc(2^64 - 8) on the fresh heap. -/
def stH : MMState :=
  match malloc stInit (2 ^ 64 - 8) 400 with
  | some (s, _) => s
  | none => st0

theorem fp_start (s : MMState) (asz : Nat) (f : Nat) :
    ∀ p0 n0 p n, findPosGo s asz p0 n0 f = some (p, n) →
      (p = p0 ∧ n = n0) ∨ (p ≠ 0 ∧ b2p s.heapListp (s.mem (p + 4)) = n) := by
  induction f with
  | zero => intro p0 n0 p n h; simp [findPosGo] at h
  | succ f ih =>
    intro p0 n0 p n h
    rw [findPosGo] at h
    by_cases hc : n0 ≠ 0 ∧ getSize (s.mem (n0 - 4)) < asz
    · rw [if_pos hc] at h
      rcases ih n0 (b2p s.heapListp (s.mem (n0 + 4))) p n h with ⟨hp, hn⟩ | hr
      · exact Or.inr ⟨hp ▸ hc.1, by rw [hp, hn]⟩
      · exact Or.inr hr
    · rw [if_neg hc] at h
      simp at h
      exact Or.inl ⟨h.1.symm, h.2.symm⟩

theorem liGo_le (asz : Nat) : ∀ k i, liGo asz i k ≤ i + k := by
  intro k
  induction k with
  | zero => intro i; simp [liGo]
  | succ k ih =>
    intro i
    rw [liGo]
    by_cases hc : i < 9 ∧ 16 <<< i < asz
    · rw [if_pos hc]; have := ih (i + 1); omega
    · rw [if_neg hc]; omega

theorem listIndexOf_le (asz : Nat) : listIndexOf asz ≤ 9 := by
  have := liGo_le asz 9 0
  simpa [listIndexOf] using this

theorem put_at (m : Mem) (p v : Nat) : put m p v p = v % 2 ^ 32 := by simp [put]

theorem put_ne (m : Mem) (p v a : Nat) (h : a ≠ p) : put m p v a = m a := by simp [put, h]

theorem p2b_lt (base x : Nat) : p2b base x < 2 ^ 32 := Nat.mod_lt _ (by norm_num)

theorem p2b_eq (base x : Nat) (h1 : base ≤ x) (h2 : x < base + 2 ^ 32) :
    p2b base x = x - base := Nat.mod_eq_of_lt (by omega)

theorem b2p_p2b (base x : Nat) (h1 : base < x) (h2 : x < base + 2 ^ 32) :
    b2p base (p2b base x) = x := by
  rw [p2b_eq base x (by omega) h2]
  unfold b2p
  rw [if_pos (by omega)]
  omega

theorem b2p_zero (base v : Nat) (h : 0 < base) (hv : b2p base v = 0) : v = 0 := by
  unfold b2p at hv
  by_cases h0 : 0 < v
  · rw [if_pos h0] at hv; omega
  · omega

theorem b2p_val (base v x : Nat) (hv : b2p base v = x) (hx : x ≠ 0) :
    v = x - base ∧ base < x := by
  unfold b2p at hv
  by_cases h0 : 0 < v
  · rw [if_pos h0] at hv; omega
  · rw [if_neg h0] at hv; omega

theorem add_to_list_eq (s : MMState) (bp asz fuel p n : Nat)
    (hfp : findPosGo s asz 0 (b2p s.heapListp (s.mem (segAddr s (listIndexOf asz)))) fuel =
      some (p, n)) :
    add_to_list s bp asz fuel = some (addResult s bp asz p n) := by
  unfold add_to_list addResult
  simp only [hfp]
  split_ifs <;> rfl

theorem remove_from_list_eq (s : MMState) (bp asz : Nat) :
    remove_from_list s bp asz =
      if b2p s.heapListp (s.mem bp) = 0 then
        if b2p s.heapListp (s.mem (bp + 4)) = 0 then
          { s with mem := put s.mem (segAddr s (listIndexOf asz)) 0 }
        else
          { s with mem := put (put s.mem (b2p s.heapListp (s.mem (bp + 4))) 0) (segAddr s (listIndexOf asz)) (p2b s.heapListp (b2p s.heapListp (s.mem (bp + 4)))) }
      else
        if b2p s.heapListp (s.mem (bp + 4)) = 0 then
          { s with mem := put s.mem (b2p s.heapListp (s.mem bp) + 4) 0 }
        else
          { s with mem := put (put s.mem (b2p s.heapListp (s.mem bp) + 4) (p2b s.heapListp (b2p s.heapListp (s.mem (bp + 4))))) (b2p s.heapListp (s.mem (bp + 4))) (p2b s.heapListp (b2p s.heapListp (s.mem bp))) } := by
  unfold remove_from_list
  rfl

/-- Helper: remove_from_list immediately after add_to_list restores all memory
outside bp's own two linkage words, given the walk's stopping position (p, n)
and local well-formedness at the junction. -/
theorem addRemove_restore
    (s : MMState) (bp asz fuel p n : Nat)
    (hfp : findPosGo s asz 0 (b2p s.heapListp (s.mem (segAddr s (listIndexOf asz)))) fuel = some (p, n))
    (hbp8 : bp % 8 = 0)
    (hbase : 0 < s.heapListp)
    (hbplo : s.heapListp < bp) (hbphi : bp < s.heapListp + 2 ^ 32)
    (hbpseg : s.segLists + 40 ≤ bp)
    (hp : p ≠ 0 → p % 8 = 0 ∧ s.heapListp < p ∧ p < s.heapListp + 2 ^ 32 ∧ s.segLists + 40 ≤ p ∧ p ≠ bp)
    (hn : n ≠ 0 → n % 8 = 0 ∧ s.heapListp < n ∧ n < s.heapListp + 2 ^ 32 ∧ s.segLists + 40 ≤ n ∧ n ≠ bp)
    (hprev : n ≠ 0 → b2p s.heapListp (s.mem n) = p) :
    ∃ s1, add_to_list s bp asz fuel = some s1 ∧
      ∀ a, a ≠ bp → a ≠ bp + 4 → (remove_from_list s1 bp asz).mem a = s.mem a := by
  refine ⟨addResult s bp asz p n, add_to_list_eq s bp asz fuel p n hfp, ?_⟩
  intro a ha1 ha2
  have hsA : segAddr s (listIndexOf asz) ≤ s.segLists + 36 := by
    have := listIndexOf_le asz
    unfold segAddr; omega
  have hstart := fp_start s asz fuel 0 (b2p s.heapListp (s.mem (segAddr s (listIndexOf asz)))) p n hfp
  have hb0 : b2p s.heapListp 0 = 0 := by simp [b2p]
  by_cases hn0 : n = 0
  · by_cases hp0 : p = 0
    · -- empty list: bp becomes the sole node; removing it clears the head again
      subst hn0; subst hp0
      have hseg0 : s.mem (segAddr s (listIndexOf asz)) = 0 := by
        rcases hstart with ⟨_, h2⟩ | ⟨h1, _⟩
        · exact b2p_zero _ _ hbase h2.symm
        · exact absurd rfl h1
      have hs1 : addResult s bp asz 0 0 = { s with mem := put (put (put s.mem (bp + 4) 0) bp 0) (segAddr s (listIndexOf asz)) (p2b s.heapListp bp) } := by
        unfold addResult; simp
      rw [hs1, remove_from_list_eq]
      dsimp only
      rw [put_ne _ _ _ _ (by omega), put_at,
        put_ne _ _ _ _ (by omega), put_ne _ _ _ _ (by omega), put_at]
      rw [Nat.zero_mod, hb0]
      rw [if_pos rfl, if_pos rfl]
      dsimp only
      have hsAeq : segAddr { s with mem := put (put (put s.mem (bp + 4) 0) bp 0) (segAddr s (listIndexOf asz)) (p2b s.heapListp bp) } (listIndexOf asz) = segAddr s (listIndexOf asz) := rfl
      rw [hsAeq]
      by_cases hA : a = segAddr s (listIndexOf asz)
      · rw [hA, put_at, hseg0]; exact Nat.zero_mod _
      · rw [put_ne _ _ _ _ hA, put_ne _ _ _ _ hA, put_ne _ _ _ _ ha1, put_ne _ _ _ _ ha2]
    · -- tail insert: bp appended after p; removing it clears p's next field again
      subst hn0
      obtain ⟨hp8, hplo, hphi, hpseg, hpbp⟩ := hp hp0
      have hlink : b2p s.heapListp (s.mem (p + 4)) = 0 := by
        rcases hstart with ⟨h1, _⟩ | ⟨_, h2⟩
        · exact absurd h1 hp0
        · exact h2
      have hs1 : addResult s bp asz p 0 = { s with mem := put (put (put s.mem (bp + 4) 0) (p + 4) (p2b s.heapListp bp)) bp (p2b s.heapListp p) } := by
        unfold addResult; simp [hp0]
      rw [hs1, remove_from_list_eq]
      dsimp only
      rw [put_at]
      rw [put_ne _ _ _ _ (by omega), put_ne _ _ _ _ (by omega), put_at]
      rw [Nat.mod_eq_of_lt (p2b_lt _ _), Nat.zero_mod]
      rw [b2p_p2b _ _ hplo hphi, hb0]
      rw [if_neg hp0, if_pos rfl]
      dsimp only
      by_cases hA : a = p + 4
      · rw [hA, put_at]
        have hz := b2p_zero _ _ hbase hlink
        rw [hz]
        exact Nat.zero_mod _
      · rw [put_ne _ _ _ _ hA, put_ne _ _ _ _ ha1, put_ne _ _ _ _ hA, put_ne _ _ _ _ ha2]
  · obtain ⟨hn8, hnlo, hnhi, hnseg, hnbp⟩ := hn hn0
    by_cases hp0 : p = 0
    · -- head insert: bp becomes the new head in front of n
      subst hp0
      have hseg : b2p s.heapListp (s.mem (segAddr s (listIndexOf asz))) = n := by
        rcases hstart with ⟨_, h2⟩ | ⟨h1, _⟩
        · exact h2.symm
        · exact absurd rfl h1
      have hprev0 : s.mem n = 0 := b2p_zero _ _ hbase (hprev hn0)
      have hs1 : addResult s bp asz 0 n = { s with mem := put (put (put (put s.mem (bp + 4) (p2b s.heapListp n)) n (p2b s.heapListp bp)) bp 0) (segAddr s (listIndexOf asz)) (p2b s.heapListp bp) } := by
        unfold addResult; simp [hn0]
      rw [hs1, remove_from_list_eq]
      dsimp only
      rw [put_ne _ _ _ _ (by omega), put_at]
      rw [put_ne _ _ _ _ (by omega), put_ne _ _ _ _ (by omega), put_ne _ _ _ _ (by omega), put_at]
      rw [Nat.mod_eq_of_lt (p2b_lt _ _), Nat.zero_mod]
      rw [b2p_p2b _ _ hnlo hnhi, hb0]
      rw [if_pos rfl, if_neg hn0]
      dsimp only
      have hsAeq : segAddr { s with mem := put (put (put (put s.mem (bp + 4) (p2b s.heapListp n)) n (p2b s.heapListp bp)) bp 0) (segAddr s (listIndexOf asz)) (p2b s.heapListp bp) } (listIndexOf asz) = segAddr s (listIndexOf asz) := rfl
      rw [hsAeq]
      by_cases hA : a = segAddr s (listIndexOf asz)
      · rw [hA, put_at]
        obtain ⟨hv, _⟩ := b2p_val _ _ _ hseg hn0
        rw [hv, p2b_eq _ _ (by omega) hnhi, Nat.mod_eq_of_lt (by omega)]
      · rw [put_ne _ _ _ _ hA]
        by_cases hB : a = n
        · rw [hB, put_at, hprev0, Nat.zero_mod]
        · rw [put_ne _ _ _ _ hB, put_ne _ _ _ _ hA, put_ne _ _ _ _ ha1, put_ne _ _ _ _ hB, put_ne _ _ _ _ ha2]
    · -- middle insert: bp spliced between p and n
      obtain ⟨hp8, hplo, hphi, hpseg, hpbp⟩ := hp hp0
      have hlink : b2p s.heapListp (s.mem (p + 4)) = n := by
        rcases hstart with ⟨h1, _⟩ | ⟨_, h2⟩
        · exact absurd h1 hp0
        · exact h2
      obtain ⟨hprevv, hpltn⟩ := b2p_val _ _ _ (hprev hn0) hp0
      have hs1 : addResult s bp asz p n = { s with mem := put (put (put (put s.mem (bp + 4) (p2b s.heapListp n)) n (p2b s.heapListp bp)) (p + 4) (p2b s.heapListp bp)) bp (p2b s.heapListp p) } := by
        unfold addResult; simp [hn0, hp0]
      rw [hs1, remove_from_list_eq]
      dsimp only
      rw [put_at]
      rw [put_ne _ _ _ _ (by omega), put_ne _ _ _ _ (by omega), put_ne _ _ _ _ (by omega), put_at]
      rw [Nat.mod_eq_of_lt (p2b_lt _ _), Nat.mod_eq_of_lt (p2b_lt _ _)]
      rw [b2p_p2b _ _ hnlo hnhi, b2p_p2b _ _ hplo hphi]
      rw [if_neg hp0, if_neg hn0]
      dsimp only
      by_cases hB : a = n
      · rw [hB, put_at, hprevv, p2b_eq _ _ (by omega) hphi, Nat.mod_eq_of_lt (by omega)]
      · rw [put_ne _ _ _ _ hB]
        by_cases hA : a = p + 4
        · rw [hA, put_at]
          obtain ⟨hv, _⟩ := b2p_val _ _ _ hlink hn0
          rw [hv, p2b_eq _ _ (by omega) hnhi, Nat.mod_eq_of_lt (by omega)]
        · rw [put_ne _ _ _ _ hA, put_ne _ _ _ _ ha1, put_ne _ _ _ _ hA, put_ne _ _ _ _ hB, put_ne _ _ _ _ ha2]

/-- C10: on a well-formed segregated-list state, remove_from_list(bp, s)
immediately after add_to_list(bp, s) for a block bp not currently in any list
restores the original list state exactly: every list head and every prev/next
offset field of every other free block equals its value before the pair of
calls (the memory is unchanged everywhere outside bp's own two linkage
words).  The hypotheses describe the insertion walk's stopping position
(p, n): the junction nodes are aligned, nonzero ones lie above the head table
and within bias range of the base, and the doubly-linked invariant holds at
the junction (n's prev field decodes to p). -/
theorem add_remove_roundtrip
    (s : MMState) (bp asz fuel p n : Nat)
    (hfp : findPosGo s asz 0 (b2p s.heapListp (s.mem (segAddr s (listIndexOf asz)))) fuel = some (p, n))
    (hbp8 : bp % 8 = 0)
    (hbase : 0 < s.heapListp)
    (hbplo : s.heapListp < bp) (hbphi : bp < s.heapListp + 2 ^ 32)
    (hbpseg : s.segLists + 40 ≤ bp)
    (hp : p ≠ 0 → p % 8 = 0 ∧ s.heapListp < p ∧ p < s.heapListp + 2 ^ 32 ∧ s.segLists + 40 ≤ p ∧ p ≠ bp)
    (hn : n ≠ 0 → n % 8 = 0 ∧ s.heapListp < n ∧ n < s.heapListp + 2 ^ 32 ∧ s.segLists + 40 ≤ n ∧ n ≠ bp)
    (hprev : n ≠ 0 → b2p s.heapListp (s.mem n) = p) :
    ∃ s1, add_to_list s bp asz fuel = some s1 ∧
      ∀ a, a ≠ bp → a ≠ bp + 4 → (remove_from_list s1 bp asz).mem a = s.mem a :=
  addRemove_restore s bp asz fuel p n hfp hbp8 hbase hbplo hbphi hbpseg hp hn hprev

theorem add_remove_roundtrip_witness :
    ∃ s1, add_to_list stInit 104 4096 50 = some s1 ∧
      ∀ a, a ≠ 104 → a ≠ 104 + 4 → (remove_from_list s1 104 4096).mem a = stInit.mem a :=
  add_remove_roundtrip stInit 104 4096 50 0 64 (by rfl) (by decide) (by decide)
    (by decide) (by decide) (by decide)
    (fun h => absurd rfl h)
    (fun _ => by decide)
    (fun _ => by decide)

theorem liGo_lower (asz : Nat) : ∀ k i j, i ≤ j → j < liGo asz i k → 16 <<< j < asz := by
  intro k
  induction k with
  | zero =>
    intro i j hij hj
    rw [liGo] at hj
    omega
  | succ k ih =>
    intro i j hij hj
    rw [liGo] at hj
    by_cases hc : i < 9 ∧ 16 <<< i < asz
    · rw [if_pos hc] at hj
      rcases Nat.lt_or_ge j (i + 1) with h | h
      · have : j = i := by omega
        exact this ▸ hc.2
      · exact ih (i + 1) j h hj
    · rw [if_neg hc] at hj
      omega

theorem liGo_upper (asz : Nat) : ∀ k i, liGo asz i k < i + k → liGo asz i k < 9 →
    asz ≤ 16 <<< liGo asz i k := by
  intro k
  induction k with
  | zero => intro i h1 h2; rw [liGo] at h1; omega
  | succ k ih =>
    intro i h1 h2
    rw [liGo] at h1 h2 ⊢
    by_cases hc : i < 9 ∧ 16 <<< i < asz
    · rw [if_pos hc] at h1 h2 ⊢
      exact ih (i + 1) (by omega) h2
    · rw [if_neg hc] at h1 h2 ⊢
      omega

theorem shl16_mono {i j : Nat} (h : i ≤ j) : 16 <<< i ≤ 16 <<< j := by
  rw [Nat.shiftLeft_eq, Nat.shiftLeft_eq]
  exact Nat.mul_le_mul_left 16 (Nat.pow_le_pow_right (by norm_num) h)

theorem listIndexOf_lower (asz j : Nat) (hj : j < listIndexOf asz) : 16 <<< j < asz :=
  liGo_lower asz 9 0 j (Nat.zero_le j) hj

theorem listIndexOf_upper (asz : Nat) (h : listIndexOf asz < 9) :
    asz ≤ 16 <<< listIndexOf asz :=
  liGo_upper asz 9 0 (by have := listIndexOf_le asz; unfold listIndexOf at *; omega) h

theorem classOfSpec_eq (asz : Nat) : classOfSpec asz = listIndexOf asz := by
  have hle : classOfSpec asz ≤ listIndexOf asz := by
    apply Nat.find_min'
    rcases Nat.lt_or_ge (listIndexOf asz) 9 with h | h
    · left
      have := listIndexOf_upper asz h
      rwa [Nat.shiftLeft_eq] at this
    · right
      have := listIndexOf_le asz
      omega
  rcases Nat.lt_or_ge (classOfSpec asz) (listIndexOf asz) with h | h
  · exfalso
    have hspec : asz ≤ 16 * 2 ^ classOfSpec asz ∨ classOfSpec asz = 9 :=
      Nat.find_spec (classOfSpecExists asz)
    have hlower := listIndexOf_lower asz (classOfSpec asz) h
    rw [Nat.shiftLeft_eq] at hlower
    have h9 : classOfSpec asz ≠ 9 := by
      have := listIndexOf_le asz
      omega
    rcases hspec with h1 | h1
    · exact absurd h1 (by omega)
    · exact h9 h1
  · omega

theorem guard_iff (asz i : Nat) (hi : i ≤ 8) :
    asz ≤ 16 <<< i ↔ listIndexOf asz ≤ i := by
  constructor
  · intro h
    by_contra hgt
    have := listIndexOf_lower asz i (by omega)
    omega
  · intro h
    rcases Nat.lt_or_ge (listIndexOf asz) 9 with h9 | h9
    · calc asz ≤ 16 <<< listIndexOf asz := listIndexOf_upper asz h9
        _ ≤ 16 <<< i := shl16_mono h
    · have := listIndexOf_le asz
      omega

theorem findFitGo_skip (s : MMState) (asz fuel : Nat) :
    ∀ d i, i + d = listIndexOf asz → listIndexOf asz ≤ 9 →
      findFitGo s asz fuel i (9 - i) =
        findFitGo s asz fuel (listIndexOf asz) (9 - listIndexOf asz) := by
  intro d
  induction d with
  | zero => intro i h1 _; rw [Nat.add_zero] at h1; rw [h1]
  | succ d ih =>
    intro i h1 h2
    have hi8 : i ≤ 8 := by omega
    have hrw : 9 - i = (9 - (i + 1)) + 1 := by omega
    rw [hrw, findFitGo]
    have hguard : ¬ (asz ≤ 16 <<< i ∧ segGet s i ≠ 0) := by
      intro hc
      have := (guard_iff asz i hi8).mp hc.1
      omega
    rw [if_neg hguard]
    exact ih (i + 1) (by omega) h2

theorem findFitGo_eq_spec (s : MMState) (asz fuel : Nat) :
    ∀ k i, listIndexOf asz ≤ i → i + k ≤ 9 →
      findFitGo s asz fuel i k = specFindFitGo s asz fuel i k := by
  intro k
  induction k with
  | zero => intro i _ _; rfl
  | succ k ih =>
    intro i h1 h2
    rw [findFitGo, specFindFitGo]
    have hle : asz ≤ 16 <<< i := (guard_iff asz i (by omega)).mpr h1
    by_cases hseg : segGet s i ≠ 0
    · rw [if_pos ⟨hle, hseg⟩, if_pos hseg]
      cases hscan : scanGo s asz (b2p s.heapListp (segGet s i)) fuel with
      | none => rfl
      | some bp =>
        dsimp only
        by_cases hbp : bp ≠ 0
        · rw [if_pos hbp, if_pos hbp]
        · rw [if_neg hbp, if_neg hbp]
          exact ih (i + 1) (by omega) (by omega)
    · rw [if_neg (by tauto), if_neg hseg]
      exact ih (i + 1) (by omega) (by omega)

theorem findFit_eq_spec (s : MMState) (asz fuel : Nat) :
    findFit s asz fuel = specFindFit s asz fuel := by
  unfold findFit specFindFit
  rw [classOfSpec_eq]
  have h1 : findFitGo s asz fuel 0 9 =
      findFitGo s asz fuel (listIndexOf asz) (9 - listIndexOf asz) := by
    have h9 : (9 : Nat) = 9 - 0 := rfl
    rw [h9]
    exact findFitGo_skip s asz fuel (listIndexOf asz) 0 (by omega) (listIndexOf_le asz)
  have h2 : findFitGo s asz fuel (listIndexOf asz) (9 - listIndexOf asz) =
      specFindFitGo s asz fuel (listIndexOf asz) (9 - listIndexOf asz) := by
    have := listIndexOf_le asz
    exact findFitGo_eq_spec s asz fuel (9 - listIndexOf asz) (listIndexOf asz) (le_refl _)
      (by omega)
  rw [h1, h2]

theorem scan_decomp (s : MMState) (asz : Nat) :
    ∀ f' f h L bp, chainFrom s h f = some L → scanGo s asz h f' = some bp → bp ≠ 0 →
      ∃ L1 L2, L = L1 ++ bp :: L2 ∧ (∀ y ∈ L1, getSize (s.mem (y - 4)) < asz) ∧
        asz ≤ getSize (s.mem (bp - 4)) := by
  intro f'
  induction f' with
  | zero => intro f h L bp hch hsc; simp [scanGo] at hsc
  | succ f' ih =>
    intro f h L bp hch hsc hbp
    rw [scanGo] at hsc
    by_cases hg : h ≠ 0 ∧ getSize (s.mem (h - 4)) < asz
    · rw [if_pos hg] at hsc
      cases f with
      | zero => simp [chainFrom] at hch
      | succ f0 =>
        rw [chainFrom, if_neg (by tauto)] at hch
        cases hch0 : chainFrom s (b2p s.heapListp (s.mem (h + 4))) f0 with
        | none => rw [hch0] at hch; simp at hch
        | some L' =>
          rw [hch0] at hch
          simp at hch
          obtain ⟨L1, L2, hL, hlt, hfit⟩ := ih f0 _ L' bp hch0 hsc hbp
          refine ⟨h :: L1, L2, ?_, ?_, hfit⟩
          · rw [← hch, hL]; rfl
          · intro y hy
            rcases List.mem_cons.mp hy with hy | hy
            · exact hy ▸ hg.2
            · exact hlt y hy
    · rw [if_neg hg] at hsc
      have hbph : bp = h := by
        have := Option.some.inj hsc
        omega
      subst hbph
      cases f with
      | zero => simp [chainFrom] at hch
      | succ f0 =>
        rw [chainFrom, if_neg hbp] at hch
        cases hch0 : chainFrom s (b2p s.heapListp (s.mem (bp + 4))) f0 with
        | none => rw [hch0] at hch; simp at hch
        | some L' =>
          rw [hch0] at hch
          simp at hch
          refine ⟨[], L', by rw [← hch]; rfl, by intro y hy; simp at hy, ?_⟩
          rcases Nat.lt_or_ge (getSize (s.mem (bp - 4))) asz with hlt | hge
          · exact absurd ⟨hbp, hlt⟩ hg
          · exact hge

theorem scan_best_fit (s : MMState) (asz f f' h bp : Nat) (L : List Nat)
    (hch : chainFrom s h f = some L)
    (hsorted : List.Sorted (· ≤ ·) (L.map fun x => getSize (s.mem (x - 4))))
    (hsc : scanGo s asz h f' = some bp) (hbp : bp ≠ 0) :
    bp ∈ L ∧ asz ≤ getSize (s.mem (bp - 4)) ∧
      ∀ x ∈ L, asz ≤ getSize (s.mem (x - 4)) →
        getSize (s.mem (bp - 4)) ≤ getSize (s.mem (x - 4)) := by
  obtain ⟨L1, L2, hL, hlt, hfit⟩ := scan_decomp s asz f' f h L bp hch hsc hbp
  subst hL
  refine ⟨by simp, hfit, ?_⟩
  intro x hx hxfit
  rcases List.mem_append.mp hx with hx1 | hx2
  · exact absurd hxfit (by have := hlt x hx1; omega)
  · rcases List.mem_cons.mp hx2 with hxx | hx2
    · rw [hxx]
    · have hsub : List.Sublist (getSize (s.mem (bp - 4)) :: (L2.map fun x => getSize (s.mem (x - 4)))) ((L1 ++ bp :: L2).map fun x => getSize (s.mem (x - 4))) := by
        rw [List.map_append]
        exact (List.map_cons _ bp L2 ▸ List.sublist_append_right _ _)
      have hs2 := hsorted.sublist hsub
      rw [List.pairwise_cons] at hs2
      exact hs2.1 _ (List.mem_map_of_mem _ hx2)

/-- C9: the free block chosen by allocate's search is found exactly as the
spec describes: starting at class_of(asize) and walking classes upward,
scanning each non-empty size-sorted list from its head and taking the first
entry with size at least asize, with one explicit fallback scan of the final
open-ended class (first conjunct: the code's search equals the spec-modelled
search, for every state); and on a size-sorted list the entry so chosen is
the best fit within that class (second conjunct). -/
theorem malloc_search_follows_spec (s : MMState) (asz fuel : Nat) :
    findFit s asz fuel = specFindFit s asz fuel ∧
    (∀ h f f' bp L, chainFrom s h f = some L →
      List.Sorted (· ≤ ·) (L.map fun x => getSize (s.mem (x - 4))) →
      scanGo s asz h f' = some bp → bp ≠ 0 →
      bp ∈ L ∧ asz ≤ getSize (s.mem (bp - 4)) ∧
        ∀ x ∈ L, asz ≤ getSize (s.mem (x - 4)) →
          getSize (s.mem (bp - 4)) ≤ getSize (s.mem (x - 4))) :=
  ⟨findFit_eq_spec s asz fuel,
   fun h f f' bp L hch hs hsc hbp => scan_best_fit s asz f f' h bp L hch hs hsc hbp⟩

theorem malloc_search_follows_spec_witness :
    findFit stInit 16 50 = specFindFit stInit 16 50 ∧
    (64 ∈ [64] ∧ 16 ≤ getSize (stInit.mem (64 - 4)) ∧
      ∀ x ∈ [64], 16 ≤ getSize (stInit.mem (x - 4)) →
        getSize (stInit.mem (64 - 4)) ≤ getSize (stInit.mem (x - 4))) :=
  ⟨(malloc_search_follows_spec stInit 16 50).1,
   (malloc_search_follows_spec stInit 16 50).2 64 50 50 64 [64] (by rfl) (by decide)
     (by rfl) (by decide)⟩

/-- C1: the consistency checker must report every violation, signal pass/fail
to its caller and return without terminating the process.  Refuted on the
reachable state stF (fresh heap, allocate 8200 bytes, release the pointer):
the checker detects a violation and takes the `error_found` branch, which in
the C code is `exit(0)` — the process is terminated instead of a failure
result being returned (the C function returns void and prints only under a
disabled debug macro). -/
theorem checkheap_terminates_process_on_violation :
    (mm_checkheap stF 400).map Prod.snd = some true ∧
    (mm_checkheap stF 400).map (fun r => r.1.isEmpty) = some false := by
  exact ⟨rfl, rfl⟩

/-- C6: the checker's invariant-4 test is claimed to treat the last size class
as unbounded above.  Refuted on the reachable state stF: block 64 sits in the
last class list (head bias 8 decodes to 64) with size 12304, which exceeds the
second-to-last class's upper bound 4096, yet the checker reports a
class-membership violation for it because it applies the finite bound
`size <= (16 << 9) = 8192` to the open-ended class as well. -/
theorem checkheap_bounds_last_class :
    mm_checkheap stF 400 = some ([Violation.wrongList 9 64], true) ∧
    segGet stF 9 = 8 ∧ b2p stF.heapListp 8 = 64 ∧
    getSize (stF.mem (64 - 4)) = 12304 ∧ 16 <<< 8 < 12304 := by
  exact ⟨rfl, rfl, rfl, rfl, by decide⟩

/-- C2: zero_allocate must zero exactly the payload of the returned block.
Refuted on the fresh heap: calloc(1, 8) returns pointer 64 with payload
bytes 64..71, but its memset length is the full block size 16, so it also
zeroes word 72 — the block's own footer, 17 after the inner malloc — and word
76 — the next block's header, 4080 after the inner malloc. -/
theorem calloc_zeroes_outside_payload :
    (calloc stInit 1 8 200).map (Except.map Prod.snd) = some (Except.ok 64) ∧
    getSize (stM8.mem (64 - 4)) = 16 ∧ ftrp stC.mem 64 = 72 ∧
    stM8.mem 72 = 17 ∧ stC.mem 72 = 0 ∧
    stM8.mem 76 = 4080 ∧ stC.mem 76 = 0 := by
  exact ⟨rfl, rfl, rfl, rfl, rfl, rfl, rfl⟩

/-- C3: the global invariant set must hold after every public operation
returns.  Refuted by the public call calloc(1, 8) on the fresh heap: when it
returns, the allocated block at 64 has header (size 16, allocated) but footer
word 0, violating invariant 1 (header equals footer). -/
theorem calloc_breaks_invariant_one :
    getSize (stC.mem (64 - 4)) = 16 ∧ getAlloc (stC.mem (64 - 4)) = 1 ∧
    stC.mem (ftrp stC.mem 64) = 0 ∧ stC.mem (64 - 4) ≠ stC.mem (ftrp stC.mem 64) := by
  exact ⟨rfl, rfl, rfl, by decide⟩

/-- C8: zero_allocate must surface a failed inner allocation as a null result
without dereferencing memory.  Refuted: calloc(0, 8) makes the inner malloc
return NULL (size 0), and the C code then evaluates GET_SIZE(HDRP(NULL)) and
memset(NULL, 0, ...) — a null dereference instead of returning null. -/
theorem calloc_derefs_null_on_failed_malloc :
    calloc stInit 0 8 200 = some (Except.error CallocUB.nullDeref) := by
  exact rfl

/-- C4 counterexample: for n = 2^64 - 8 ≥ 1 the size_t computation
`ALIGN(size + DSIZE)` wraps to 0, and malloc returns the non-null pointer 64
whose block ends up with usable size 4088 < n (the final header is even left
marked free by the corrupted split). -/
theorem malloc_huge_size_counterexample :
    malloc stInit (2 ^ 64 - 8) 400 = some (stH, 64) ∧
    getSize (stH.mem (64 - 4)) - 8 < 2 ^ 64 - 8 := by
  exact ⟨rfl, by decide⟩

end MM

